import Mathlib

set_option maxRecDepth 4000

/-!
Verification of the reactive web-component engine (`rxwc`).

The development shallowly embeds the source files:
  * `src/utils.ts` — attribute codec (`serialize`, `deserialize`) and the
    camel/kebab case translations (`toKebabCase`, `toCamelCase`);
  * `src/decorators.ts` — the declarative per-field configuration operations
    (`observe`, `toggleAttr`, `withConverter`, `notify`, `reflect`);
  * `src/property-effects.ts` — the `notify` / `reflect` effect handlers;
  * `src/rx-component.ts` — the per-property change pipeline
    (`tap(effects) → distinctUntilChanged → map`), the throttled render
    scheduler (`throttleTime(leading, trailing)`), the lifecycle bridge
    (`connectedCallback`, `disconnectedCallback`, `attributeChangedCallback`)
    and the registered-stream bookkeeping (`subscribe` / `unsubscribe`).

JavaScript runtime values are modelled by the inductive type `JSVal`;
object identity (the `===` used by `distinctUntilChanged`) is modelled by a
numeric id.  Streams are modelled by numeric ids, RxJS subscription objects by
fresh numeric handles.  Time is a discrete `Nat`; the caller-supplied
scheduler's throttling interval is an arbitrary parameter `d`.
-/

/-! ## Character classes of the JavaScript regexes in `src/utils.ts` -/

/-- The regex class `[A-Z]`. -/
def isUpperAscii (c : Char) : Bool := 65 ≤ c.toNat && c.toNat ≤ 90

/-- The regex class `[a-z]`. -/
def isLowerAscii (c : Char) : Bool := 97 ≤ c.toNat && c.toNat ≤ 122

/-- The regex class `[0-9]` (also `\d`). -/
def isDigitAscii (c : Char) : Bool := 48 ≤ c.toNat && c.toNat ≤ 57

/-- The regex class `[a-z0-9]` used as the first group of `toKebabCase`. -/
def isLowerDigit (c : Char) : Bool := isLowerAscii c || isDigitAscii c

/-- The regex class `\w`, i.e. `[A-Za-z0-9_]`. -/
def isWordAscii (c : Char) : Bool :=
  isUpperAscii c || isLowerAscii c || isDigitAscii c || c == '_'

/-- ASCII letters and digits: the property names claim C10 quantifies over. -/
def isAlnumAscii (c : Char) : Bool :=
  isUpperAscii c || isLowerAscii c || isDigitAscii c

/-! ## `toKebabCase` / `toCamelCase` (src/utils.ts)

`toKebabCase` performs two global `String.replace` passes:
first `/([a-z0-9])([A-Z])/g` and then `/([\w])_([\w])/g`, both replaced by
`` `${a}-${b.toLowerCase()}` ``.  `toCamelCase` performs one pass of
`/[-_]([\w\d])/g` replaced by the upper-cased group.  A global `replace`
scans the original string left to right and resumes after each
(non-overlapping) match; the recursions below mirror that. -/

/-- First `replace` pass of `toKebabCase`: `/([a-z0-9])([A-Z])/g`. -/
def kebabPass1 : List Char → List Char
  | [] => []
  | [a] => [a]
  | a :: b :: rest =>
    if isLowerDigit a && isUpperAscii b then
      a :: '-' :: Char.toLower b :: kebabPass1 rest
    else
      a :: kebabPass1 (b :: rest)

/-- Second `replace` pass of `toKebabCase`: `/([\w])_([\w])/g`.  A match
needs three characters (word char, underscore, word char); on a failed
match at the current position the scan advances one character, exactly as
the branches below do. -/
def kebabPass2 : List Char → List Char
  | [] => []
  | [a] => [a]
  | [a, b] => [a, b]
  | a :: b :: c :: rest =>
    if b = '_' && isWordAscii a && isWordAscii c then
      a :: '-' :: Char.toLower c :: kebabPass2 rest
    else
      a :: kebabPass2 (b :: c :: rest)

/-- `toKebabCase` from `src/utils.ts`. -/
def toKebabCase (prop : String) : String := String.mk (kebabPass2 (kebabPass1 prop.data))

/-- The single `replace` pass of `toCamelCase`: `/[-_]([\w\d])/g`. -/
def camelPass : List Char → List Char
  | [] => []
  | c :: [] => [c]
  | c :: d :: rest2 =>
    if (c == '-' || c == '_') && isWordAscii d then
      Char.toUpper d :: camelPass rest2
    else
      c :: camelPass (d :: rest2)

/-- `toCamelCase` from `src/utils.ts`. -/
def toCamelCase (attr : String) : String := String.mk (camelPass attr.data)

/-! ## JavaScript values -/

/-- JavaScript runtime values, as far as the component engine inspects them.
`obj id toStr` is a non-URL object: `id` models reference identity (the
`===` comparison of `distinctUntilChanged`), `toStr` models its `toString`
member (`none` models `{ toString: null }`, i.e. no string-conversion
capability). `url href` models a `URL` instance. -/
inductive JSVal
  | undef
  | nullV
  | boolV (b : Bool)
  | num (n : Int)
  | str (s : String)
  | url (href : String)
  | obj (id : Nat) (toStr : Option String)
deriving DecidableEq, Repr

/-- JavaScript truthiness: the values `undefined`, `null`, `false`, `0` and
the empty string are falsy; every object (URL included) is truthy. -/
def falsy : JSVal → Bool
  | JSVal.undef => true
  | JSVal.nullV => true
  | JSVal.boolV b => !b
  | JSVal.num n => n == 0
  | JSVal.str s => s == ""
  | JSVal.url _ => false
  | JSVal.obj _ _ => false

/-- The string produced by the template literal `` `${value}` ``. -/
def templateStr : JSVal → String
  | JSVal.undef => "undefined"
  | JSVal.nullV => "null"
  | JSVal.boolV b => if b then "true" else "false"
  | JSVal.num n => toString n
  | JSVal.str s => s
  | JSVal.url href => href
  | JSVal.obj _ toStr => toStr.getD "[object Object]"

/-- The `value.toString` member: `none` when the value has no
string-conversion capability (an object whose `toString` is `null`). -/
def toStringMember : JSVal → Option String
  | JSVal.undef => none
  | JSVal.nullV => none
  | JSVal.boolV b => some (if b then "true" else "false")
  | JSVal.num n => some (toString n)
  | JSVal.str s => some s
  | JSVal.url href => some href
  | JSVal.obj _ toStr => toStr

/-- `JSON.stringify` restricted to the modelled values.  It returns `none`
(JavaScript `undefined`) on `undefined`; a `URL` carries a `toJSON`
returning its href, hence stringifies to the quoted href; a plain object
(whose `toString` is ignored by `JSON.stringify`) stringifies to `"{}"`.
Strings are modelled without escape sequences. -/
def jsonStringify : JSVal → Option String
  | JSVal.undef => none
  | JSVal.nullV => some "null"
  | JSVal.boolV b => some (if b then "true" else "false")
  | JSVal.num n => some (toString n)
  | JSVal.str s => some ("\"" ++ s ++ "\"")
  | JSVal.url href => some ("\"" ++ href ++ "\"")
  | JSVal.obj _ _ => some "\x7b\x7d"

/-- The `.href` member access `(value as URL).href`: `undefined` (`none`)
unless the value really is a URL. -/
def hrefMember : JSVal → Option String
  | JSVal.url href => some href
  | _ => none

/-! ## Converters and property configuration (src/types.d.ts) -/

/-- A property converter: the built-ins `JSON`, `URL`, `Boolean`, a custom
`parse`/`toString` pair, or absent (`undefined`) when no decorator set one. -/
inductive Converter
  | json
  | url
  | boolean
  | custom (parse : String → JSVal)
  | absent

/-- `true` exactly on the two converters `serialize` singles out
(`converter === JSON`, `converter === URL`). -/
def Converter.isJsonOrUrl : Converter → Bool
  | Converter.json => true
  | Converter.url => true
  | _ => false

/-- The per-property `ConfigObject` of `src/types.d.ts`.  The `attribute`
field is called `attr` here (`attribute` is a Lean keyword); `none` models
a field the decorators never set. -/
structure PropCfg where
  converter : Converter
  attr : Option String
  notify : Option String
  reflect : Bool

/-- A freshly created (`{}`) property configuration. -/
def emptyPropCfg : PropCfg :=
  { converter := Converter.absent, attr := none, notify := none, reflect := false }

/-- Errors thrown by the codec: `EvalError('Invalid serializer')` (the
spec's `SerializationError`) and the `SyntaxError` of a failing
`JSON.parse` (the spec's propagated decode error). -/
inductive JsError
  | invalidSerializer
  | syntaxError
deriving DecidableEq, Repr

/-- `serialize` from `src/utils.ts`.  The result is `Except` for the thrown
`EvalError`, and carries `Option String` because `JSON.stringify` (and a
`.href` access on a non-URL) can produce JavaScript `undefined`. -/
def serialize (value : JSVal) (config : PropCfg) : Except JsError (Option String) :=
  match config.converter with
  | Converter.json => Except.ok (jsonStringify value)
  | Converter.url => Except.ok (hrefMember value)
  | _ =>
    if falsy value then Except.ok (some (templateStr value))
    else
      match toStringMember value with
      | some s => Except.ok (some s)
      | none => Except.error JsError.invalidSerializer

/-- Integer literal shape: optional minus sign followed by one or more
digits. -/
def isIntLit : List Char → Bool
  | [] => false
  | '-' :: rest => rest ≠ [] && rest.all isDigitAscii
  | l => l.all isDigitAscii

/-- Numeric value of a digit string. -/
def natOfDigits (l : List Char) : Nat :=
  l.foldl (fun acc c => acc * 10 + (c.toNat - 48)) 0

/-- Integer value of an integer literal. -/
def intOfChars : List Char → Int
  | '-' :: rest => -(natOfDigits rest : Int)
  | l => (natOfDigits l : Int)

/-- Escape-free quoted string shape: a leading and a trailing `"` around
characters none of which is `"` or `\`. -/
def isSimpleQuoted : List Char → Bool
  | '"' :: rest =>
    match rest.reverse with
    | '"' :: mid => mid.all (fun c => c ≠ '"' && c ≠ '\\')
    | _ => false
  | _ => false

/-- The characters strictly between the surrounding quotes. -/
def unquoteChars (l : List Char) : List Char := (l.drop 1).dropLast

/-- `JSON.parse`, an external runtime primitive, modelled on the primitive
JSON payloads the component's attributes exchange: the literals
`null` / `true` / `false`, integer numerals and escape-free quoted strings.
Anything else is treated as the thrown `SyntaxError`; real `JSON.parse`
also accepts composite payloads, which nothing below depends on. -/
def jsonParse (s : String) : Except JsError JSVal :=
  if s = "null" then Except.ok JSVal.nullV
  else if s = "true" then Except.ok (JSVal.boolV true)
  else if s = "false" then Except.ok (JSVal.boolV false)
  else if isIntLit s.data then Except.ok (JSVal.num (intOfChars s.data))
  else if isSimpleQuoted s.data then Except.ok (JSVal.str (String.mk (unquoteChars s.data)))
  else Except.error JsError.syntaxError

/-- `value.charAt(0)` is one of `[`, `{`, `"`. -/
def startsJsonish (s : String) : Bool :=
  match s.data with
  | [] => false
  | c :: _ => c == '[' || c == '\x7b' || c == '"'

/-- `/\d+/.test(value)`: the string contains a digit anywhere. -/
def containsDigit (s : String) : Bool := s.data.any isDigitAscii

/-- `deserialize` from `src/utils.ts`. -/
def deserialize (value : String) (config : PropCfg) : Except JsError JSVal :=
  match config.converter with
  | Converter.boolean => Except.ok (JSVal.boolV (value != "null"))
  | Converter.url => Except.ok (JSVal.url value)
  | Converter.custom parse => Except.ok (parse value)
  | _ =>
    if value = "null" || value = "false" || value = "true"
        || startsJsonish value || containsDigit value then
      jsonParse value
    else
      Except.ok (JSVal.str value)

/-! ## Decorators (src/decorators.ts)

Each decorator receives the decorated property key; TypeScript property keys
are strings or symbols.  Every decorator first rejects symbol keys with
`TypeError('Only string properties can be observed.')` (the spec's
`ConfigError`) before touching the configuration, so on a symbol key the
class configuration is returned unchanged inside `Except.error`. -/

/-- A TypeScript property key: a string or a symbol (identified by id). -/
inductive PropKey
  | strKey (s : String)
  | symKey (id : Nat)
deriving DecidableEq

/-- The `properties` map of a class-level `ComponentConfig`, in declaration
order. -/
def ClassConfig : Type := List (String × PropCfg)

/-- Association-list lookup for `properties[key]`. -/
def lookupProp : List (String × PropCfg) → String → Option PropCfg
  | [], _ => none
  | p :: rest, key => if p.1 = key then some p.2 else lookupProp rest key

/-- Association-list update for `properties[key] = cfg`, creating the entry
at the end (JavaScript object insertion order) when absent. -/
def setProp : List (String × PropCfg) → String → PropCfg → List (String × PropCfg)
  | [], key, cfg => [(key, cfg)]
  | p :: rest, key, cfg =>
    if p.1 = key then (key, cfg) :: rest else p :: setProp rest key cfg

/-- `getPropertyConfig` from `src/decorators.ts`:
`properties[key] || (properties[key] = {})`. -/
def getPropertyConfig (config : ClassConfig) (key : String) : PropCfg :=
  (lookupProp config key).getD emptyPropCfg

/-- The error thrown on a symbol property key. -/
inductive ConfigError
  | nonStringProperty
deriving DecidableEq

/-- `observe(attribute?)`: rejects symbol keys, then sets the bound attribute
name (the argument when it is a non-empty string — the empty string is falsy
in JavaScript — and `toKebabCase` of the key otherwise) and defaults the
converter to `JSON` when no converter is set yet. -/
def observe (attrArg : Option String) (config : ClassConfig) (key : PropKey) :
    Except ConfigError ClassConfig :=
  match key with
  | PropKey.symKey _ => Except.error ConfigError.nonStringProperty
  | PropKey.strKey k =>
    let pc := getPropertyConfig config k
    let attrName :=
      match attrArg with
      | some a => if a = "" then toKebabCase k else a
      | none => toKebabCase k
    let pc := { pc with attr := some attrName }
    let pc :=
      match pc.converter with
      | Converter.absent => { pc with converter := Converter.json }
      | _ => pc
    Except.ok (setProp config k pc)

/-- `toggleAttr()`: rejects symbol keys, then sets the `Boolean` converter. -/
def toggleAttr (config : ClassConfig) (key : PropKey) : Except ConfigError ClassConfig :=
  match key with
  | PropKey.symKey _ => Except.error ConfigError.nonStringProperty
  | PropKey.strKey k =>
    let pc := getPropertyConfig config k
    Except.ok (setProp config k { pc with converter := Converter.boolean })

/-- `withConverter(converter)`: rejects symbol keys, then sets the converter. -/
def withConverter (conv : Converter) (config : ClassConfig) (key : PropKey) :
    Except ConfigError ClassConfig :=
  match key with
  | PropKey.symKey _ => Except.error ConfigError.nonStringProperty
  | PropKey.strKey k =>
    let pc := getPropertyConfig config k
    Except.ok (setProp config k { pc with converter := conv })

/-- `notify(eventName?)`: rejects symbol keys, then sets the notification
event name (the argument when truthy, otherwise the kebab-cased key with a
`-changed` suffix). -/
def notify (eventName : Option String) (config : ClassConfig) (key : PropKey) :
    Except ConfigError ClassConfig :=
  match key with
  | PropKey.symKey _ => Except.error ConfigError.nonStringProperty
  | PropKey.strKey k =>
    let pc := getPropertyConfig config k
    let ev :=
      match eventName with
      | some e => if e = "" then toKebabCase k ++ "-changed" else e
      | none => toKebabCase k ++ "-changed"
    Except.ok (setProp config k { pc with notify := some ev })

/-- `reflect()`: rejects symbol keys, then sets the reflect flag. -/
def reflect (config : ClassConfig) (key : PropKey) : Except ConfigError ClassConfig :=
  match key with
  | PropKey.symKey _ => Except.error ConfigError.nonStringProperty
  | PropKey.strKey k =>
    let pc := getPropertyConfig config k
    Except.ok (setProp config k { pc with reflect := true })

/-! ## Property effects (src/property-effects.ts)

`Object.entries(propertyEffects)` enumerates the module's exports in source
order — `notify` then `reflect` — and keeps the handlers whose name is a key
present in the property configuration (`effect in propertyConfig`).  The
`notify` handler dispatches a `CustomEvent` named by the config; the
`reflect` handler calls `setAttribute` with the serialized value. -/

instance {ε α : Type} [DecidableEq ε] [DecidableEq α] : DecidableEq (Except ε α)
  | Except.ok a, Except.ok b =>
    if h : a = b then Decidable.isTrue (by rw [h]) else Decidable.isFalse (by simp [h])
  | Except.ok _, Except.error _ => Decidable.isFalse (by simp)
  | Except.error _, Except.ok _ => Decidable.isFalse (by simp)
  | Except.error a, Except.error b =>
    if h : a = b then Decidable.isTrue (by rw [h]) else Decidable.isFalse (by simp [h])

/-- An observable side effect a property-effect handler performs on the host
element. -/
inductive HostEffect
  | dispatchEvent (eventName : String)
  | setAttribute (attrName : Option String) (serialized : Except JsError (Option String))
deriving DecidableEq

/-- The effect dispatch the change pipeline performs for one raw property
value: every handler whose flag is present in the configuration, in registry
(source) order. -/
def runPropertyEffects (config : PropCfg) (value : JSVal) : List HostEffect :=
  (match config.notify with
   | some ev => [HostEffect.dispatchEvent ev]
   | none => []) ++
  (if config.reflect then
    [HostEffect.setAttribute config.attr (serialize value config)]
   else [])

/-! ## The per-property change pipeline (src/rx-component.ts, constructor)

Each observed property is backed by a `BehaviorSubject` seeded with
`undefined`; its setter calls `next`.  Subscribing the pipeline (which
happens on attach) therefore delivers the raw emission sequence
`undefined :: writes`, piped through
`tap(effects) → distinctUntilChanged() → map(value => [name, value])`.
`PipeState.lastOut` is the comparison state of `distinctUntilChanged`,
`effects` collects one batch of host effects per raw emission, `events` the
`(propertyName, value)` pairs that survive deduplication. -/

structure PipeState where
  lastOut : Option JSVal
  effects : List (List HostEffect)
  events : List (String × JSVal)

/-- One raw emission through `tap → distinctUntilChanged → map`. -/
def pipeStep (config : PropCfg) (propertyName : String) (st : PipeState) (v : JSVal) :
    PipeState :=
  let st1 : PipeState := { st with effects := st.effects ++ [runPropertyEffects config v] }
  match st1.lastOut with
  | some w =>
    if v = w then st1
    else { st1 with lastOut := some v, events := st1.events ++ [(propertyName, v)] }
  | none => { st1 with lastOut := some v, events := st1.events ++ [(propertyName, v)] }

/-- The subscribed pipeline of one observed property, fed the seed value
`undefined` of its `BehaviorSubject` followed by the given writes. -/
def pipelineRun (config : PropCfg) (propertyName : String) (writes : List JSVal) : PipeState :=
  (JSVal.undef :: writes).foldl (pipeStep config propertyName) ⟨none, [], []⟩

/-- The value sequence `distinctUntilChanged` lets through, starting from
comparison state `last`. -/
def distinctFrom : Option JSVal → List JSVal → List JSVal
  | _, [] => []
  | some w, v :: rest =>
    if v = w then distinctFrom (some w) rest else v :: distinctFrom (some v) rest
  | none, v :: rest => v :: distinctFrom (some v) rest

/-- The value sequence `distinctUntilChanged` lets through on a fresh
subscription. -/
def distinctUntilChanged (l : List JSVal) : List JSVal := distinctFrom none l

/-- Run-length encoding: the maximal runs of consecutive equal values, in
order, as (value, length) pairs. -/
def maximalRuns : List JSVal → List (JSVal × Nat)
  | [] => []
  | v :: rest =>
    match maximalRuns rest with
    | (w, n) :: tail => if v = w then (w, n + 1) :: tail else (v, 1) :: (w, n) :: tail
    | [] => [(v, 1)]

/-- Observed-attributes enumeration (`static get observedAttributes`):
the declared property names, kebab-cased, in declaration order. -/
def observedAttributes (config : ClassConfig) : List String :=
  config.map (fun p => toKebabCase p.1)

/-! ## `attributeChangedCallback` (src/rx-component.ts)

On `oldValue === newValue` it returns immediately.  Otherwise it emits one
`attributeChanged$` signal carrying `{name, from, to}`, camel-cases the
attribute name, and assigns `deserialize(newValue, properties[propertyName])`
to the property — one write into the property's `BehaviorSubject` cell.  A
throwing `deserialize` (decode error, or an attribute with no declared
configuration, whose destructuring throws a `TypeError`) propagates after
the signal and before the write. -/

/-- An externally observable action of `attributeChangedCallback`. -/
inductive HostAction
  | signal (name fromVal toVal : String)
  | write (propertyName : String) (value : JSVal)
deriving DecidableEq

/-- `attributeChangedCallback`: the ordered list of actions performed, and
whether the call ended by propagating an exception. -/
def attributeChangedCallback (properties : List (String × PropCfg))
    (attr oldValue newValue : String) : List HostAction × Bool :=
  if oldValue = newValue then ([], false)
  else
    let sig := HostAction.signal attr oldValue newValue
    let propertyName := toCamelCase attr
    match lookupProp properties propertyName with
    | some cfg =>
      match deserialize newValue cfg with
      | Except.ok v => ([sig, HostAction.write propertyName v], false)
      | Except.error _ => ([sig], true)
    | none => ([sig], true)

/-! ## The throttled render scheduler (src/rx-component.ts, constructor)

The merged change feed is piped through
`throttleTime(0, scheduler, { leading: true, trailing: true })` followed by
`tap(() => renderer(this.template(), this.root))`, and the resulting stream
is registered so that attach subscribes it and detach tears it down.

The machine below models one instance with a single observed property and an
opaque scheduler granularity `d` (RxJS 6 `throttleTime` semantics):

  * an emission with no open throttle window fires the render callback
    immediately (leading edge) and opens a window of length `d`;
  * emissions inside the window only mark a trailing emission as pending
    (the render reads the current property value, so no value is stored);
  * when the window expires with a trailing emission pending, the render
    callback fires at the window end and the window closes (RxJS 6 does not
    re-arm the window on the trailing emission);
  * detaching unsubscribes the pipeline: the scheduled window task is
    cancelled, so a pending trailing render is discarded, and the
    `distinctUntilChanged` comparison state dies with the subscription;
  * attaching subscribes the pipeline afresh: the `BehaviorSubject` replays
    the current value, which passes the fresh `distinctUntilChanged` and
    fires an immediate leading render.

Renders are logged as (time, property value at render time) pairs —
`template()` reads the property getter, i.e. the subject's current value. -/

structure RenderState where
  attached : Bool
  value : JSVal
  lastEmitted : Option JSVal
  windowEnd : Option Nat
  trailing : Bool
  renders : List (Nat × JSVal)
deriving DecidableEq

/-- An externally driven event of the render machine, paired with its time. -/
inductive REvent
  | write (v : JSVal)
  | attach
  | detach
deriving DecidableEq

/-- Fire the scheduler task of an expired throttle window (its scheduled
time has passed): emit the pending trailing render at the window end, if
any, and close the window. -/
def expireWindow (t : Nat) (s : RenderState) : RenderState :=
  match s.windowEnd with
  | some w =>
    if w ≤ t then
      if s.trailing then
        { s with renders := s.renders ++ [(w, s.value)], trailing := false, windowEnd := none }
      else
        { s with windowEnd := none }
    else s
  | none => s

/-- One emission reaching `throttleTime`: leading render and a fresh window
when no window is open, otherwise a pending trailing emission. -/
def throttleEmit (d t : Nat) (s : RenderState) : RenderState :=
  match s.windowEnd with
  | some _ => { s with trailing := true }
  | none =>
    { s with renders := s.renders ++ [(t, s.value)], windowEnd := some (t + d) }

/-- Process one timed event. -/
def stepTimed (d : Nat) (s : RenderState) (te : Nat × REvent) : RenderState :=
  match te with
  | (t, REvent.write v) =>
    let s := expireWindow t s
    let s := { s with value := v }
    if s.attached then
      match s.lastEmitted with
      | some w =>
        if v = w then s else throttleEmit d t { s with lastEmitted := some v }
      | none => throttleEmit d t { s with lastEmitted := some v }
    else s
  | (t, REvent.attach) =>
    let s := expireWindow t s
    let s := { s with attached := true, lastEmitted := some s.value,
                      windowEnd := none, trailing := false }
    throttleEmit d t s
  | (t, REvent.detach) =>
    let s := expireWindow t s
    { s with attached := false, lastEmitted := none, windowEnd := none, trailing := false }

/-- After the last event, silence: the open window's scheduler task still
fires, emitting a pending trailing render at the window end. -/
def settle (s : RenderState) : RenderState :=
  match s.windowEnd with
  | some w =>
    if s.trailing then
      { s with renders := s.renders ++ [(w, s.value)], trailing := false, windowEnd := none }
    else { s with windowEnd := none }
  | none => s

/-- Run a timed event sequence and let the machine settle. -/
def runTimed (d : Nat) (s : RenderState) (evs : List (Nat × REvent)) : RenderState :=
  settle (evs.foldl (stepTimed d) s)

/-- An attached instance at rest: no open throttle window, no pending
trailing render, the last deduplicated emission was the current value, and
an empty render log to count from. -/
def quiescent (v : JSVal) : RenderState :=
  { attached := true, value := v, lastEmitted := some v,
    windowEnd := none, trailing := false, renders := [] }

/-- The value of the last of the given timed writes (the first component is
the write time), or `v0` if there are none. -/
def lastWrite (v0 : JSVal) (ws : List (Nat × JSVal)) : JSVal :=
  ws.foldl (fun _ p => p.2) v0

/-! ## Lifecycle bridge and registered streams (src/rx-component.ts)

`'@streams'` is a `Set` of registered observables (insertion order),
`'@subscriptions'` a `Map` from observable to the subscription handle the
most recent `stream.subscribe()` returned.  `connectedCallback` subscribes
every registered stream — unconditionally overwriting any mapped handle —
`disconnectedCallback` unsubscribes exactly the mapped handles,
`subscribe(...streams)` adds and (when attached) subscribes streams not
already mapped, `unsubscribe(...streams)` removes and unsubscribes.

Streams are numeric ids; each `stream.subscribe()` call creates a fresh
numeric handle.  `live` is the set of handles actually active in RxJS,
tagged with their stream: overwriting a map entry does not unsubscribe the
old handle, so a handle can stay live while no longer mapped. -/

structure LcState where
  attached : Bool
  streams : List Nat
  subs : List (Nat × Nat)
  live : List (Nat × Nat)
  nextHandle : Nat
deriving DecidableEq

/-- The freshly constructed instance. -/
def lcInit : LcState :=
  { attached := false, streams := [], subs := [], live := [], nextHandle := 0 }

/-- `Set.add`: append if absent. -/
def setAdd (l : List Nat) (x : Nat) : List Nat := if x ∈ l then l else l ++ [x]

/-- `Map.has`. -/
def mapHas (l : List (Nat × Nat)) (k : Nat) : Bool := l.any (fun p => p.1 == k)

/-- `Map.get`. -/
def mapGet : List (Nat × Nat) → Nat → Option Nat
  | [], _ => none
  | p :: rest, k => if p.1 = k then some p.2 else mapGet rest k

/-- `Map.set`: overwrite in place, or append. -/
def mapSet : List (Nat × Nat) → Nat → Nat → List (Nat × Nat)
  | [], k, v => [(k, v)]
  | p :: rest, k, v => if p.1 = k then (k, v) :: rest else p :: mapSet rest k v

/-- `Map.delete`. -/
def mapDelete : List (Nat × Nat) → Nat → List (Nat × Nat)
  | [], _ => []
  | p :: rest, k => if p.1 = k then rest else p :: mapDelete rest k

/-- Subscribe one stream: a fresh handle goes live and is mapped
(overwriting the previous map entry, if any, without unsubscribing it). -/
def subscribeStream (s : LcState) (id : Nat) : LcState :=
  { s with live := s.live ++ [(id, s.nextHandle)],
           subs := mapSet s.subs id s.nextHandle,
           nextHandle := s.nextHandle + 1 }

/-- `connectedCallback`: mark attached, then subscribe every registered
stream (then emit the `connected$` signal). -/
def connectedCallback (s : LcState) : LcState :=
  let s := { s with attached := true }
  s.streams.foldl subscribeStream s

/-- `disconnectedCallback`: mark detached (then emit the `disconnected$`
signal), unsubscribe every mapped handle, clear the map. -/
def disconnectedCallback (s : LcState) : LcState :=
  let s := { s with attached := false }
  let live := s.subs.foldl (fun l p => l.erase p) s.live
  { s with live := live, subs := [] }

/-- `subscribe(...streams)`: add every stream to the registered set; when
attached, subscribe those without a mapped subscription. -/
def subscribe (s : LcState) (ids : List Nat) : LcState :=
  let s := { s with streams := ids.foldl setAdd s.streams }
  if s.attached then
    ids.foldl (fun s id => if mapHas s.subs id then s else subscribeStream s id) s
  else s

/-- The per-stream removal step of `unsubscribe`: unsubscribe the mapped
handle, if any, and unmap it. -/
def removeStream (s : LcState) (id : Nat) : LcState :=
  match mapGet s.subs id with
  | some h => { s with live := s.live.erase (id, h), subs := mapDelete s.subs id }
  | none => s

/-- `unsubscribe(...streams)`: remove every stream from the registered set,
then unsubscribe and unmap those with a mapped subscription. -/
def unsubscribe (s : LcState) (ids : List Nat) : LcState :=
  let s := { s with streams := ids.foldl (fun l id => l.erase id) s.streams }
  ids.foldl removeStream s

/-- A lifecycle-bridge operation. -/
inductive LcOp
  | connected
  | disconnected
  | subscribeCall (ids : List Nat)
  | unsubscribeCall (ids : List Nat)
deriving DecidableEq

/-- Apply one operation. -/
def applyOp (s : LcState) : LcOp → LcState
  | LcOp.connected => connectedCallback s
  | LcOp.disconnected => disconnectedCallback s
  | LcOp.subscribeCall ids => subscribe s ids
  | LcOp.unsubscribeCall ids => unsubscribe s ids

/-- Run a sequence of operations. -/
def runOps (s : LcState) (ops : List LcOp) : LcState := ops.foldl applyOp s

/-- Well-formed lifecycle sequences, given the current attachment state:
the host runtime never delivers `connectedCallback` to an element that is
already connected. -/
def wfOps (a : Bool) : List LcOp → Bool
  | [] => true
  | LcOp.connected :: rest => !a && wfOps true rest
  | LcOp.disconnected :: rest => wfOps false rest
  | _ :: rest => wfOps a rest

/-- The stream has a live subscription. -/
def hasLive (s : LcState) (id : Nat) : Bool := s.live.any (fun p => p.1 == id)

/-- The number of live subscriptions of the stream. -/
def liveCount (s : LcState) (id : Nat) : Nat :=
  (s.live.filter (fun p => p.1 == id)).length

/-- The bookkeeping invariant the lifecycle bridge maintains under
well-formed sequences: the mapped subscriptions are exactly the live ones,
the registered set has no duplicates, while attached every registered
stream is mapped (in registration order) and while detached nothing is. -/
def LcInv (s : LcState) : Prop :=
  s.subs = s.live ∧ s.streams.Nodup ∧
    (if s.attached then s.subs.map Prod.fst = s.streams else s.subs = [])

instance (s : LcState) : Decidable (LcInv s) := by
  unfold LcInv
  infer_instance

/-! ## Concrete fixtures used by witnesses and counterexamples -/

/-- `{ converter: JSON }`. -/
def jsonPropCfg : PropCfg :=
  { converter := Converter.json, attr := none, notify := none, reflect := false }

/-- `{ converter: URL }`. -/
def urlPropCfg : PropCfg :=
  { converter := Converter.url, attr := none, notify := none, reflect := false }

/-- `{ converter: Boolean }`. -/
def boolPropCfg : PropCfg :=
  { converter := Converter.boolean, attr := none, notify := none, reflect := false }

/-- `{}` — a configuration with no converter. -/
def bareCfg : PropCfg := emptyPropCfg

/-- The configuration a bare `@observe() prop` decorator produces. -/
def plainObservedCfg : PropCfg :=
  { converter := Converter.json, attr := some "prop", notify := none, reflect := false }

/-- An operation sequence the four lifecycle entry points can perform but a
real host runtime never does: two attaches without a detach between them. -/
def doubleAttachOps : List LcOp :=
  [LcOp.subscribeCall [0], LcOp.connected, LcOp.connected, LcOp.disconnected]

/-- The field writes among a list of host actions. -/
def writeActions (l : List HostAction) : List HostAction :=
  l.filter (fun a => match a with | HostAction.write _ _ => true | _ => false)

/-- Drop the head of the list when it equals the given value. -/
def dropHeadEq (x : JSVal) : List JSVal → List JSVal
  | [] => []
  | y :: rest => if y = x then rest else y :: rest

/-! # Theorems -/

/-- C9: declaring a field with a symbolic (non-string) identifier fails
synchronously with the `ConfigError` (`TypeError('Only string properties can
be observed.')`) in every configuration operation — `observe`, `toggleAttr`,
`withConverter`, `notify` and `reflect` — and no configuration entry is
created: each operation rejects the key before touching the configuration,
with no fallback naming scheme. -/
theorem decorators_reject_symbol_keys (config : ClassConfig) (id : Nat)
    (attrArg : Option String) (conv : Converter) (eventName : Option String) :
    observe attrArg config (PropKey.symKey id) = Except.error ConfigError.nonStringProperty ∧
    toggleAttr config (PropKey.symKey id) = Except.error ConfigError.nonStringProperty ∧
    withConverter conv config (PropKey.symKey id) = Except.error ConfigError.nonStringProperty ∧
    notify eventName config (PropKey.symKey id) = Except.error ConfigError.nonStringProperty ∧
    reflect config (PropKey.symKey id) = Except.error ConfigError.nonStringProperty :=
  ⟨rfl, rfl, rfl, rfl, rfl⟩

/-- C7: `serialize` with the `JSON` converter stringifies via `JSON.stringify`;
with the `URL` converter it returns the value's href; with any other (or no)
converter a falsy value serializes to its template-literal string form, and a
non-falsy value without string-conversion capability raises
`EvalError('Invalid serializer')` (the spec's `SerializationError`) —
together with the spec's concrete examples. -/
theorem serialize_spec :
    (∀ (value : JSVal) (config : PropCfg), config.converter = Converter.json →
      serialize value config = Except.ok (jsonStringify value)) ∧
    (∀ (href : String) (config : PropCfg), config.converter = Converter.url →
      serialize (JSVal.url href) config = Except.ok (some href)) ∧
    (∀ (value : JSVal) (config : PropCfg), Converter.isJsonOrUrl config.converter = false →
      falsy value = true →
      serialize value config = Except.ok (some (templateStr value))) ∧
    (∀ (value : JSVal) (config : PropCfg), Converter.isJsonOrUrl config.converter = false →
      falsy value = false → toStringMember value = none →
      serialize value config = Except.error JsError.invalidSerializer) ∧
    serialize (JSVal.num 1) jsonPropCfg = Except.ok (some "1") ∧
    serialize (JSVal.url "http://localhost/p") urlPropCfg
      = Except.ok (some "http://localhost/p") ∧
    serialize JSVal.nullV bareCfg = Except.ok (some "null") ∧
    serialize (JSVal.obj 0 (some "fake")) bareCfg = Except.ok (some "fake") ∧
    serialize (JSVal.obj 0 none) bareCfg = Except.error JsError.invalidSerializer := by
  refine ⟨?_, ?_, ?_, ?_, by decide, by decide, by decide, by decide, by decide⟩
  · intro value config h
    simp [serialize, h]
  · intro href config h
    simp [serialize, h, hrefMember]
  · intro value config hconv hfalsy
    cases hc : config.converter <;> simp_all [serialize, Converter.isJsonOrUrl]
  · intro value config hconv hfalsy hts
    cases hc : config.converter <;> simp_all [serialize, Converter.isJsonOrUrl]

/-- C7 witness: the falsy branch of `serialize_spec`, applied at the
concrete value `null` with the `Boolean` converter. -/
theorem serialize_spec_witness :
    Converter.isJsonOrUrl boolPropCfg.converter = false ∧ falsy JSVal.nullV = true ∧
    serialize JSVal.nullV boolPropCfg = Except.ok (some "null") :=
  ⟨rfl, rfl, serialize_spec.2.2.1 JSVal.nullV boolPropCfg rfl rfl⟩

/-- C8 counterexample: with the declared property `prop` (default `JSON`
converter), `attributeChangedCallback("prop", "", "3x")` with old ≠ new
emits the attribute-changed signal but performs NO field write: `"3x"`
contains a digit, so `deserialize` hands it to `JSON.parse`, which throws
before the property assignment — the exception propagates (second
component `true`).  The claim's "exactly one field write" fails here. -/
theorem attribute_change_write_cex :
    attributeChangedCallback [("prop", plainObservedCfg)] "prop" "" "3x"
      = ([HostAction.signal "prop" "" "3x"], true) ∧
    writeActions (attributeChangedCallback [("prop", plainObservedCfg)] "prop" "" "3x").1
      = [] := by
  constructor <;> decide

/-- C8 (amended): `attributeChangedCallback(name, old, old)` is a no-op —
no lifecycle signal, no field write, no exception; with `old ≠ new` it
always emits exactly one attribute-changed signal carrying (name, from, to)
first, and then performs exactly one write of the decoded value into the
corresponding (camel-cased) field cell provided decoding succeeds — when
`deserialize` throws, the decode error propagates after the signal and no
write happens. -/
theorem attribute_change_spec (properties : List (String × PropCfg))
    (attr oldValue newValue : String) (cfg : PropCfg)
    (hcfg : lookupProp properties (toCamelCase attr) = some cfg) :
    attributeChangedCallback properties attr oldValue oldValue = ([], false) ∧
    (oldValue ≠ newValue →
      attributeChangedCallback properties attr oldValue newValue =
        (match deserialize newValue cfg with
         | Except.ok v =>
           ([HostAction.signal attr oldValue newValue,
             HostAction.write (toCamelCase attr) v], false)
         | Except.error _ => ([HostAction.signal attr oldValue newValue], true))) := by
  constructor
  · simp [attributeChangedCallback]
  · intro hne
    rcases hd : deserialize newValue cfg with v | e <;>
      simp [attributeChangedCallback, hne, hcfg, hd]

/-- C8 witness: the amended theorem applied at the declared property `prop`
with old `"1"`, new `"2"`: one signal, then one write of the decoded `2`. -/
theorem attribute_change_spec_witness :
    lookupProp [("prop", plainObservedCfg)] (toCamelCase "prop") = some plainObservedCfg ∧
    ("1" : String) ≠ "2" ∧
    attributeChangedCallback [("prop", plainObservedCfg)] "prop" "1" "2"
      = ([HostAction.signal "prop" "1" "2", HostAction.write "prop" (JSVal.num 2)], false) := by
  refine ⟨rfl, by decide, ?_⟩
  have h := (attribute_change_spec [("prop", plainObservedCfg)] "prop" "1" "2"
    plainObservedCfg rfl).2 (by decide)
  exact h.trans (by decide)

/-- The `tap` stage collects one batch of property effects per raw emission. -/
theorem foldl_pipeStep_effects (config : PropCfg) (name : String) :
    ∀ (ws : List JSVal) (st : PipeState),
      (ws.foldl (pipeStep config name) st).effects
        = st.effects ++ ws.map (runPropertyEffects config) := by
  intro ws
  induction ws with
  | nil => intro st; simp
  | cons v rest ih =>
    intro st
    rw [List.foldl_cons, ih]
    unfold pipeStep
    rcases st.lastOut with _ | w
    · simp
    · by_cases h : v = w <;> simp [h]

/-- The events a `pipeStep` fold appends are the `distinctUntilChanged`
survivors (from the current comparison state), paired with the property
name. -/
theorem foldl_pipeStep_events (config : PropCfg) (name : String) :
    ∀ (ws : List JSVal) (st : PipeState),
      (ws.foldl (pipeStep config name) st).events
        = st.events ++ (distinctFrom st.lastOut ws).map (fun v => (name, v)) := by
  intro ws
  induction ws with
  | nil => intro st; simp [distinctFrom]
  | cons v rest ih =>
    intro st
    rw [List.foldl_cons, ih]
    rcases hl : st.lastOut with _ | w
    · simp [pipeStep, hl, distinctFrom]
    · by_cases h : v = w <;> simp [pipeStep, hl, h, distinctFrom]

/-- `distinctUntilChanged` with comparison state `prev` passes the heads of
the maximal runs, except that a leading run of `prev`s is swallowed. -/
theorem distinctFrom_some_eq_runs :
    ∀ (l : List JSVal) (prev : JSVal),
      distinctFrom (some prev) l = dropHeadEq prev ((maximalRuns l).map Prod.fst) := by
  intro l
  induction l with
  | nil => intro prev; simp [distinctFrom, maximalRuns, dropHeadEq]
  | cons v rest ih =>
    intro prev
    have hruns : maximalRuns (v :: rest)
        = (match maximalRuns rest with
           | (w, n) :: tail => if v = w then (w, n + 1) :: tail else (v, 1) :: (w, n) :: tail
           | [] => [(v, 1)]) := rfl
    rcases hr : maximalRuns rest with _ | ⟨⟨w, n⟩, t⟩
    · have hrest0 : distinctFrom (some prev) rest = [] := by rw [ih prev, hr]; rfl
      have hrest1 : distinctFrom (some v) rest = [] := by rw [ih v, hr]; rfl
      rw [hruns, hr]
      by_cases h : v = prev
      · simp [distinctFrom, h, hrest0, dropHeadEq]
      · simp [distinctFrom, h, hrest1, dropHeadEq]
    · rw [hruns, hr]
      by_cases h : v = prev
      · by_cases hw : v = w
        · have hwp : w = prev := hw.symm.trans h
          simp [distinctFrom, h, hw, ih prev, hr, dropHeadEq, hwp]
        · have hwp : ¬ w = prev := fun hc => hw (h.trans hc.symm)
          have hpw : ¬ prev = w := fun hc => hwp hc.symm
          simp [distinctFrom, h, hw, ih prev, hr, dropHeadEq, hwp, hpw]
      · by_cases hw : v = w
        · have hwp2 : ¬ w = prev := fun hc => h (hw.trans hc)
          have hdw : distinctFrom (some w) rest = List.map Prod.fst t := by
            rw [ih w, hr]; simp [dropHeadEq]
          simp [distinctFrom, h, hw, dropHeadEq, hwp2, hdw]
        · have hwv : ¬ w = v := fun hc => hw hc.symm
          simp [distinctFrom, h, hw, ih v, hr, dropHeadEq, hwv]

/-- Certification that `maximalRuns` is the run-length decomposition:
expanding every run reproduces the original sequence. -/
theorem maximalRuns_join :
    ∀ l : List JSVal, ((maximalRuns l).map (fun p => List.replicate p.2 p.1)).flatten = l := by
  intro l
  induction l with
  | nil => simp [maximalRuns]
  | cons v rest ih =>
    have hruns : maximalRuns (v :: rest)
        = (match maximalRuns rest with
           | (w, n) :: tail => if v = w then (w, n + 1) :: tail else (v, 1) :: (w, n) :: tail
           | [] => [(v, 1)]) := rfl
    rcases hr : maximalRuns rest with _ | ⟨⟨w, n⟩, t⟩
    · have hrest : rest = [] := by
        have h2 := ih
        rw [hr] at h2
        simpa using h2
      subst hrest
      rw [hruns, hr]
      simp
    · rw [hr] at ih
      simp only [hruns, hr]
      by_cases hw : v = w
      · rw [if_pos hw]
        simp only [List.map_cons, List.flatten_cons, List.replicate_succ] at *
        simp [hw, ih]
      · rw [if_neg hw]
        simp only [List.map_cons, List.flatten_cons] at *
        simp [ih]

/-- Certification that the runs of `maximalRuns` are maximal: adjacent runs
carry different values, and every run is nonempty. -/
theorem maximalRuns_maximal :
    ∀ l : List JSVal,
      ((maximalRuns l).Chain' fun p q => p.1 ≠ q.1) ∧ ∀ p ∈ maximalRuns l, 0 < p.2 := by
  intro l
  induction l with
  | nil => simp [maximalRuns]
  | cons v rest ih =>
    have hruns : maximalRuns (v :: rest)
        = (match maximalRuns rest with
           | (w, n) :: tail => if v = w then (w, n + 1) :: tail else (v, 1) :: (w, n) :: tail
           | [] => [(v, 1)]) := rfl
    rcases hr : maximalRuns rest with _ | ⟨⟨w, n⟩, t⟩
    · simp [hruns, hr]
    · rw [hr] at ih
      simp only [hruns, hr]
      by_cases hw : v = w
      · rw [if_pos hw]
        rcases ih with ⟨ihc, ihp⟩
        refine ⟨?_, ?_⟩
        · rcases t with _ | ⟨q, t2⟩
          · simp
          · rw [List.chain'_cons] at ihc ⊢
            exact ihc
        · intro p hp
          rcases List.mem_cons.mp hp with hp2 | hp2
          · simp [hp2]
          · exact ihp p (List.mem_cons_of_mem _ hp2)
      · rw [if_neg hw]
        rcases ih with ⟨ihc, ihp⟩
        refine ⟨?_, ?_⟩
        · rw [List.chain'_cons]
          exact ⟨hw, ihc⟩
        · intro p hp
          rcases List.mem_cons.mp hp with hp2 | hp2
          · simp [hp2]
          · exact ihp p hp2

/-- C1 counterexample: for the single write `0` to the declared field
`prop` of a fresh attached instance, the written values form one maximal
run, yet the dedup stage emits TWO events: subscribing the pipeline first
replays the `BehaviorSubject` seed `undefined`, which passes
`distinctUntilChanged` and becomes an extra `(prop, undefined)` event ahead
of the per-run events. -/
theorem dedup_per_run_cex :
    (pipelineRun plainObservedCfg "prop" [JSVal.num 0]).events
      = [("prop", JSVal.undef), ("prop", JSVal.num 0)] ∧
    (maximalRuns [JSVal.num 0]).map (fun p => ("prop", p.1)) = [("prop", JSVal.num 0)] ∧
    (pipelineRun plainObservedCfg "prop" [JSVal.num 0]).events
      ≠ (maximalRuns [JSVal.num 0]).map (fun p => ("prop", p.1)) := by
  refine ⟨by decide, by decide, by decide⟩

/-- C1 (amended): for every declared field and every finite sequence of
writes performed while the feed is subscribed, the dedup stage emits
exactly one `(fieldName, value)` event per maximal run of consecutive equal
values of the raw emission sequence — the `BehaviorSubject` seed
`undefined` followed by the written values — in write order.  Equivalently:
one initial event carrying `undefined`, then one event per maximal run of
consecutive equal written values, except that a leading run of `undefined`
writes is merged into the seed's run. -/
theorem dedup_one_event_per_run (config : PropCfg) (name : String) (writes : List JSVal) :
    (pipelineRun config name writes).events
      = (maximalRuns (JSVal.undef :: writes)).map (fun p => (name, p.1)) := by
  have h := foldl_pipeStep_events config name (JSVal.undef :: writes) ⟨none, [], []⟩
  rw [pipelineRun, h]
  have hruns : maximalRuns (JSVal.undef :: writes)
      = (match maximalRuns writes with
         | (w, n) :: tail =>
           if JSVal.undef = w then (w, n + 1) :: tail else (JSVal.undef, 1) :: (w, n) :: tail
         | [] => [(JSVal.undef, 1)]) := rfl
  rcases hr : maximalRuns writes with _ | ⟨⟨w, n⟩, t⟩
  · have hdist : distinctFrom (some JSVal.undef) writes = [] := by
      rw [distinctFrom_some_eq_runs writes JSVal.undef, hr]; rfl
    simp [distinctFrom, hruns, hr, hdist]
  · simp only [hruns, hr]
    by_cases hw : JSVal.undef = w
    · have hdist : distinctFrom (some JSVal.undef) writes = List.map Prod.fst t := by
        rw [distinctFrom_some_eq_runs writes JSVal.undef, hr]
        simp [dropHeadEq, hw.symm]
      rw [if_pos hw]
      rw [hw] at hdist
      simp [distinctFrom, hdist, hw, List.map_map, Function.comp]
    · have hwn : ¬ w = JSVal.undef := fun hc => hw hc.symm
      have hdist : distinctFrom (some JSVal.undef) writes = w :: List.map Prod.fst t := by
        rw [distinctFrom_some_eq_runs writes JSVal.undef, hr]
        simp [dropHeadEq, hwn]
      rw [if_neg hw]
      simp [distinctFrom, hdist, List.map_map, Function.comp]

/-- C6: property effects run on every raw write (and on the subscription
seed), including writes whose value equals the previous one, because the
`tap` dispatching them sits before `distinctUntilChanged` in the pipeline;
only the downstream event feed is deduplicated: the subscribed pipeline
produces one effect batch per raw emission, while its events are the
`distinctUntilChanged` survivors. -/
theorem effects_fire_on_every_raw_write (config : PropCfg) (name : String)
    (writes : List JSVal) :
    (pipelineRun config name writes).effects
      = (JSVal.undef :: writes).map (runPropertyEffects config) ∧
    (pipelineRun config name writes).events
      = (distinctUntilChanged (JSVal.undef :: writes)).map (fun v => (name, v)) := by
  constructor
  · have h := foldl_pipeStep_effects config name (JSVal.undef :: writes) ⟨none, [], []⟩
    rw [pipelineRun, h]
    rfl
  · have h := foldl_pipeStep_events config name (JSVal.undef :: writes) ⟨none, [], []⟩
    rw [pipelineRun, h]
    rfl

/-- C2: from an attached quiescent instance, three rapid value-changing
writes to the field, all falling inside one throttling interval and followed
by silence, produce exactly two renders: one immediately at the first write
(leading edge, rendering the first written value) and one at the end of the
interval rendering the final written value (trailing edge). -/
theorem throttle_leading_trailing (d : Nat) (v0 w1 w2 w3 : JSVal) (t1 t2 t3 : Nat)
    (h1 : w1 ≠ v0) (h2 : w2 ≠ w1) (h3 : w3 ≠ w2)
    (ht12 : t1 ≤ t2) (ht23 : t2 ≤ t3) (ht3 : t3 < t1 + d) :
    (runTimed d (quiescent v0)
        [(t1, REvent.write w1), (t2, REvent.write w2), (t3, REvent.write w3)]).renders
      = [(t1, w1), (t1 + d, w3)] := by
  have hn2 : ¬ (t1 + d ≤ t2) := by omega
  have hn3 : ¬ (t1 + d ≤ t3) := by omega
  simp [runTimed, stepTimed, expireWindow, throttleEmit, settle, quiescent,
    h1, h2, h3, hn2, hn3]

/-- C2 witness: the throttle theorem at interval 5 with writes 1, 2, 3 at
times 0, 1, 2 over a fresh (undefined-valued) quiescent instance. -/
theorem throttle_leading_trailing_witness :
    ((JSVal.num 1 ≠ JSVal.undef) ∧ (JSVal.num 2 ≠ JSVal.num 1) ∧
      (JSVal.num 3 ≠ JSVal.num 2) ∧ (2 < 0 + 5)) ∧
    (runTimed 5 (quiescent JSVal.undef)
        [(0, REvent.write (JSVal.num 1)), (1, REvent.write (JSVal.num 2)),
         (2, REvent.write (JSVal.num 3))]).renders
      = [(0, JSVal.num 1), (5, JSVal.num 3)] :=
  ⟨⟨by decide, by decide, by decide, by decide⟩,
    throttle_leading_trailing 5 JSVal.undef (JSVal.num 1) (JSVal.num 2) (JSVal.num 3)
      0 1 2 (by decide) (by decide) (by decide) (by decide) (by decide) (by decide)⟩

/-- While detached (and with no open throttle window), writes only move the
property value: no render fires, no window opens, nothing else changes. -/
theorem foldl_writes_detached (d : Nat) :
    ∀ (ws : List (Nat × JSVal)) (s : RenderState),
      s.attached = false → s.windowEnd = none →
      (ws.map (fun p => (p.1, REvent.write p.2))).foldl (stepTimed d) s
        = { s with value := lastWrite s.value ws } := by
  intro ws
  induction ws with
  | nil => intro s _ _; simp [lastWrite]
  | cons p rest ih =>
    intro s ha hw
    have hstep : stepTimed d s (p.1, REvent.write p.2) = { s with value := p.2 } := by
      simp [stepTimed, expireWindow, hw, ha]
    rw [List.map_cons, List.foldl_cons, hstep, ih _ (by simp [ha]) (by simp [hw])]
    simp [lastWrite]

/-- C4: after `disconnectedCallback`, zero renders occur regardless of
intervening field writes (a throttle window pending at detach time is
cancelled with it, so a pending trailing render never fires after detach);
a subsequent `connectedCallback` resumes rendering with exactly one
immediate render at attach time, rendering the latest written value — and
its fresh leading window holds no trailing render, so nothing further fires
without new writes. -/
theorem detach_suppresses_reattach_renders_once (d : Nat) (s : RenderState)
    (t : Nat) (ws : List (Nat × JSVal)) (ta : Nat) :
    ((ws.map (fun p => (p.1, REvent.write p.2))).foldl (stepTimed d)
        (stepTimed d s (t, REvent.detach))).renders
      = (stepTimed d s (t, REvent.detach)).renders ∧
    (stepTimed d
        ((ws.map (fun p => (p.1, REvent.write p.2))).foldl (stepTimed d)
          (stepTimed d s (t, REvent.detach)))
        (ta, REvent.attach)).renders
      = (stepTimed d s (t, REvent.detach)).renders
        ++ [(ta, lastWrite (stepTimed d s (t, REvent.detach)).value ws)] ∧
    (settle (stepTimed d
        ((ws.map (fun p => (p.1, REvent.write p.2))).foldl (stepTimed d)
          (stepTimed d s (t, REvent.detach)))
        (ta, REvent.attach))).renders
      = (stepTimed d
          ((ws.map (fun p => (p.1, REvent.write p.2))).foldl (stepTimed d)
            (stepTimed d s (t, REvent.detach)))
          (ta, REvent.attach)).renders := by
  have hsd : stepTimed d s (t, REvent.detach)
      = { expireWindow t s with
          attached := false
          lastEmitted := none
          windowEnd := none
          trailing := false } := by
    simp [stepTimed]
  have hsw : (ws.map (fun p => (p.1, REvent.write p.2))).foldl (stepTimed d)
        (stepTimed d s (t, REvent.detach))
      = { stepTimed d s (t, REvent.detach) with
          value := lastWrite (stepTimed d s (t, REvent.detach)).value ws } :=
    foldl_writes_detached d ws _ (by rw [hsd]) (by rw [hsd])
  constructor
  · rw [hsw]
  constructor
  · rw [hsw, hsd]
    simp [stepTimed, expireWindow, throttleEmit]
  · rw [hsw, hsd]
    simp [stepTimed, expireWindow, throttleEmit, settle]

/-- `Map.set` on an absent key appends the entry. -/
theorem mapSet_of_not_mem :
    ∀ (l : List (Nat × Nat)) (k v : Nat), k ∉ l.map Prod.fst →
      mapSet l k v = l ++ [(k, v)] := by
  intro l
  induction l with
  | nil => intro k v _; rfl
  | cons p rest ih =>
    intro k v hk
    simp only [List.map_cons, List.mem_cons] at hk
    push_neg at hk
    rw [mapSet, if_neg (fun hc => hk.1 hc.symm)]
    rw [ih k v hk.2]
    rfl

/-- `Map.has` decides key membership. -/
theorem mapHas_iff (l : List (Nat × Nat)) (k : Nat) :
    mapHas l k = true ↔ k ∈ l.map Prod.fst := by
  simp [mapHas, List.any_eq_true, List.mem_map]

/-- A `Map.get` miss means the key is absent. -/
theorem mapGet_none_iff :
    ∀ (l : List (Nat × Nat)) (k : Nat), mapGet l k = none ↔ k ∉ l.map Prod.fst := by
  intro l
  induction l with
  | nil => intro k; simp [mapGet]
  | cons p rest ih =>
    intro k
    rw [mapGet]
    by_cases h : p.1 = k
    · simp [h]
    · rw [if_neg h, ih k]
      simp only [List.map_cons, List.mem_cons]
      constructor
      · intro hnot hmem
        rcases hmem with hm | hm
        · exact h hm.symm
        · exact hnot hm
      · intro hnot hm
        exact hnot (Or.inr hm)

/-- `Map.delete` of a present key erases exactly its (first) entry. -/
theorem mapDelete_eq_erase :
    ∀ (l : List (Nat × Nat)) (k h : Nat), mapGet l k = some h →
      mapDelete l k = l.erase (k, h) := by
  intro l
  induction l with
  | nil => intro k h hg; simp [mapGet] at hg
  | cons p rest ih =>
    intro k h hg
    rw [mapGet] at hg
    by_cases hp : p.1 = k
    · rw [if_pos hp] at hg
      have : p = (k, h) := by
        rcases p with ⟨a, b⟩
        simp at hp hg
        simp [hp, hg]
      rw [mapDelete, if_pos hp, this, List.erase_cons_head]
    · rw [if_neg hp] at hg
      rw [mapDelete, if_neg hp, ih k h hg, List.erase_cons_tail]
      simp only [beq_iff_eq]
      intro hc
      exact hp (by rw [hc])

/-- Erasing a present key's entry erases its key from the key list. -/
theorem map_fst_erase :
    ∀ (l : List (Nat × Nat)) (k h : Nat), mapGet l k = some h →
      (l.erase (k, h)).map Prod.fst = (l.map Prod.fst).erase k := by
  intro l
  induction l with
  | nil => intro k h hg; simp [mapGet] at hg
  | cons p rest ih =>
    intro k h hg
    rw [mapGet] at hg
    by_cases hp : p.1 = k
    · rw [if_pos hp] at hg
      have hpk : p = (k, h) := by
        rcases p with ⟨a, b⟩
        simp at hp hg
        simp [hp, hg]
      subst hpk
      rw [List.erase_cons_head, List.map_cons]
      simp [List.erase_cons_head]
    · rw [if_neg hp] at hg
      rw [List.erase_cons_tail (by simp only [beq_iff_eq]; intro hc; exact hp (by rw [hc]))]
      rw [List.map_cons, List.map_cons, ih k h hg, List.erase_cons_tail]
      simp only [beq_iff_eq]
      exact fun hc => hp hc

/-- Erasing every element of a list from itself leaves nothing. -/
theorem foldl_erase_self :
    ∀ l : List (Nat × Nat), l.foldl (fun acc p => acc.erase p) l = [] := by
  intro l
  induction l with
  | nil => rfl
  | cons p rest ih =>
    rw [List.foldl_cons, List.erase_cons_head]
    exact ih

/-- Field equations of `subscribeStream`. -/
theorem subscribeStream_fields (s : LcState) (id : Nat) :
    (subscribeStream s id).live = s.live ++ [(id, s.nextHandle)] ∧
    (subscribeStream s id).subs = mapSet s.subs id s.nextHandle ∧
    (subscribeStream s id).streams = s.streams ∧
    (subscribeStream s id).attached = s.attached :=
  ⟨rfl, rfl, rfl, rfl⟩

/-- The `connectedCallback` subscription fold: starting from matching maps
and keys disjoint from the pending stream ids (no duplicates among them),
it appends one fresh live, mapped subscription per stream. -/
theorem connected_fold :
    ∀ (ids : List Nat) (s : LcState), s.subs = s.live →
      (∀ i ∈ ids, i ∉ s.subs.map Prod.fst) → ids.Nodup →
      (ids.foldl subscribeStream s).subs = (ids.foldl subscribeStream s).live ∧
      (ids.foldl subscribeStream s).subs.map Prod.fst = s.subs.map Prod.fst ++ ids ∧
      (ids.foldl subscribeStream s).streams = s.streams ∧
      (ids.foldl subscribeStream s).attached = s.attached := by
  intro ids
  induction ids with
  | nil => intro s hsl _ _; exact ⟨hsl, by simp, rfl, rfl⟩
  | cons i rest ih =>
    intro s hsl hdis hnd
    rw [List.foldl_cons]
    have hset : mapSet s.subs i s.nextHandle = s.subs ++ [(i, s.nextHandle)] :=
      mapSet_of_not_mem s.subs i s.nextHandle (hdis i (List.mem_cons_self i rest))
    have hsubs : (subscribeStream s i).subs = s.subs ++ [(i, s.nextHandle)] :=
      (subscribeStream_fields s i).2.1.trans hset
    have hlive : (subscribeStream s i).live = s.live ++ [(i, s.nextHandle)] :=
      (subscribeStream_fields s i).1
    have hnd2 := (List.nodup_cons.mp hnd).2
    have hni := (List.nodup_cons.mp hnd).1
    have hdis2 : ∀ j ∈ rest, j ∉ (subscribeStream s i).subs.map Prod.fst := by
      intro j hj
      rw [hsubs]
      simp only [List.map_append, List.mem_append]
      rintro (hm | hm)
      · exact hdis j (List.mem_cons_of_mem _ hj) hm
      · simp at hm
        exact hni (hm ▸ hj)
    have hsl2 : (subscribeStream s i).subs = (subscribeStream s i).live := by
      rw [hsubs, hlive, hsl]
    rcases ih (subscribeStream s i) hsl2 hdis2 hnd2 with ⟨h1, h2, h3, h4⟩
    refine ⟨h1, ?_, h3.trans (subscribeStream_fields s i).2.2.1,
      h4.trans (subscribeStream_fields s i).2.2.2⟩
    rw [h2, hsubs]
    simp

/-- The `subscribe` subscription fold: it keeps maps matching and tracks the
mapped key list exactly as `setAdd` does. -/
theorem subscribe_fold :
    ∀ (ids : List Nat) (s : LcState), s.subs = s.live →
      ((ids.foldl (fun s id => if mapHas s.subs id then s else subscribeStream s id) s).subs
        = (ids.foldl (fun s id => if mapHas s.subs id then s else subscribeStream s id) s).live) ∧
      ((ids.foldl (fun s id => if mapHas s.subs id then s else subscribeStream s id) s).subs.map
          Prod.fst
        = ids.foldl setAdd (s.subs.map Prod.fst)) ∧
      ((ids.foldl (fun s id => if mapHas s.subs id then s else subscribeStream s id) s).streams
        = s.streams) ∧
      ((ids.foldl (fun s id => if mapHas s.subs id then s else subscribeStream s id) s).attached
        = s.attached) := by
  intro ids
  induction ids with
  | nil => intro s hsl; exact ⟨hsl, rfl, rfl, rfl⟩
  | cons i rest ih =>
    intro s hsl
    rw [List.foldl_cons, List.foldl_cons]
    by_cases hm : mapHas s.subs i = true
    · rw [if_pos hm]
      have hmem : i ∈ s.subs.map Prod.fst := (mapHas_iff _ _).mp hm
      have hsa : setAdd (s.subs.map Prod.fst) i = s.subs.map Prod.fst := by
        rw [setAdd, if_pos hmem]
      rw [hsa]
      exact ih s hsl
    · rw [if_neg hm]
      have hmem : i ∉ s.subs.map Prod.fst := fun hc => hm ((mapHas_iff _ _).mpr hc)
      have hset : mapSet s.subs i s.nextHandle = s.subs ++ [(i, s.nextHandle)] :=
        mapSet_of_not_mem s.subs i s.nextHandle hmem
      have hsubs : (subscribeStream s i).subs = s.subs ++ [(i, s.nextHandle)] :=
        (subscribeStream_fields s i).2.1.trans hset
      have hlive : (subscribeStream s i).live = s.live ++ [(i, s.nextHandle)] :=
        (subscribeStream_fields s i).1
      have hsa : setAdd (s.subs.map Prod.fst) i = s.subs.map Prod.fst ++ [i] := by
        rw [setAdd, if_neg hmem]
      rw [hsa]
      rcases ih (subscribeStream s i) (by rw [hsubs, hlive, hsl]) with ⟨h1, h2, h3, h4⟩
      refine ⟨h1, ?_, h3.trans (subscribeStream_fields s i).2.2.1,
        h4.trans (subscribeStream_fields s i).2.2.2⟩
      rw [h2, hsubs]
      simp

/-- The `unsubscribe` removal fold: it keeps maps matching, keeps keys
duplicate-free, and erases the removed ids from the mapped key list. -/
theorem unsubscribe_fold :
    ∀ (ids : List Nat) (s : LcState), s.subs = s.live → (s.subs.map Prod.fst).Nodup →
      (ids.foldl removeStream s).subs = (ids.foldl removeStream s).live ∧
      (ids.foldl removeStream s).subs.map Prod.fst
        = ids.foldl (fun l id => l.erase id) (s.subs.map Prod.fst) ∧
      ((ids.foldl removeStream s).subs.map Prod.fst).Nodup ∧
      (ids.foldl removeStream s).streams = s.streams ∧
      (ids.foldl removeStream s).attached = s.attached := by
  intro ids
  induction ids with
  | nil => intro s hsl hnd; exact ⟨hsl, rfl, hnd, rfl, rfl⟩
  | cons i rest ih =>
    intro s hsl hnd
    rw [List.foldl_cons, List.foldl_cons]
    rcases hg : mapGet s.subs i with _ | h
    · have hid : removeStream s i = s := by rw [removeStream, hg]
      have hmem : i ∉ s.subs.map Prod.fst := (mapGet_none_iff _ _).mp hg
      rw [hid, List.erase_of_not_mem hmem]
      exact ih s hsl hnd
    · have hdel : mapDelete s.subs i = s.subs.erase (i, h) := mapDelete_eq_erase _ _ _ hg
      have hkeys : (s.subs.erase (i, h)).map Prod.fst = (s.subs.map Prod.fst).erase i :=
        map_fst_erase _ _ _ hg
      have hsubs : (removeStream s i).subs = s.subs.erase (i, h) := by
        rw [removeStream, hg]
        exact hdel
      have hlive : (removeStream s i).live = s.live.erase (i, h) := by
        rw [removeStream, hg]
      have hstr : (removeStream s i).streams = s.streams := by
        rw [removeStream, hg]
      have hatt : (removeStream s i).attached = s.attached := by
        rw [removeStream, hg]
      have hsl2 : (removeStream s i).subs = (removeStream s i).live := by
        rw [hsubs, hlive, hsl]
      have hnd2 : ((removeStream s i).subs.map Prod.fst).Nodup := by
        rw [hsubs, hkeys]
        exact hnd.erase i
      rcases ih (removeStream s i) hsl2 hnd2 with ⟨h1, h2, h3, h4, h5⟩
      refine ⟨h1, ?_, h3, h4.trans hstr, h5.trans hatt⟩
      rw [h2, hsubs, hkeys]

/-- `setAdd` folds preserve freedom from duplicates. -/
theorem foldl_setAdd_nodup :
    ∀ (ids : List Nat) (l : List Nat), l.Nodup → (ids.foldl setAdd l).Nodup := by
  intro ids
  induction ids with
  | nil => intro l h; exact h
  | cons i rest ih =>
    intro l h
    rw [List.foldl_cons]
    apply ih
    rw [setAdd]
    by_cases hm : i ∈ l
    · rw [if_pos hm]; exact h
    · rw [if_neg hm]
      simp [List.nodup_append, h, hm]

/-- Erase folds preserve freedom from duplicates. -/
theorem foldl_erase_nodup :
    ∀ (ids : List Nat) (l : List Nat), l.Nodup →
      (ids.foldl (fun l id => l.erase id) l).Nodup := by
  intro ids
  induction ids with
  | nil => intro l h; exact h
  | cons i rest ih =>
    intro l h
    rw [List.foldl_cons]
    exact ih _ (h.erase i)

/-- Erase folds keep an empty list empty. -/
theorem foldl_erase_nil :
    ∀ ids : List Nat, ids.foldl (fun l id => l.erase id) [] = [] := by
  intro ids
  induction ids with
  | nil => rfl
  | cons i rest ih =>
    rw [List.foldl_cons, List.erase_nil]
    exact ih

/-- `connectedCallback` from a detached state satisfying the invariant:
the invariant holds again and the instance is attached. -/
theorem lcInv_connected (s : LcState) (hinv : LcInv s) (ha : s.attached = false) :
    LcInv (connectedCallback s) ∧ (connectedCallback s).attached = true := by
  rcases hinv with ⟨hsl, hnd, hif⟩
  rw [ha] at hif
  simp only [Bool.false_eq_true, if_false] at hif
  have hc : connectedCallback s
      = s.streams.foldl subscribeStream { s with attached := true } := rfl
  have h := connected_fold s.streams { s with attached := true }
    (by show s.subs = s.live; exact hsl)
    (by intro i _; show i ∉ s.subs.map Prod.fst; rw [hif]; simp) hnd
  rcases h with ⟨h1, h2, h3, h4⟩
  rw [hc]
  refine ⟨⟨h1, ?_, ?_⟩, h4⟩
  · rw [h3]; exact hnd
  · rw [h4]
    simp only [if_true]
    rw [h2, h3, hif]
    simp

/-- `disconnectedCallback` preserves the invariant and detaches. -/
theorem lcInv_disconnected (s : LcState) (hinv : LcInv s) :
    LcInv (disconnectedCallback s) ∧ (disconnectedCallback s).attached = false := by
  rcases hinv with ⟨hsl, hnd, _⟩
  have hsubs : (disconnectedCallback s).subs = [] := rfl
  have hlive : (disconnectedCallback s).live
      = s.subs.foldl (fun l p => l.erase p) s.live := rfl
  have hstr : (disconnectedCallback s).streams = s.streams := rfl
  have hatt : (disconnectedCallback s).attached = false := rfl
  have hlive0 : (disconnectedCallback s).live = [] := by
    rw [hlive, hsl]
    exact foldl_erase_self s.live
  refine ⟨⟨?_, ?_, ?_⟩, hatt⟩
  · rw [hsubs, hlive0]
  · rw [hstr]; exact hnd
  · rw [hatt, hsubs]
    simp

/-- `subscribe` preserves the invariant and the attachment state. -/
theorem lcInv_subscribe (s : LcState) (ids : List Nat) (hinv : LcInv s) :
    LcInv (subscribe s ids) ∧ (subscribe s ids).attached = s.attached := by
  rcases hinv with ⟨hsl, hnd, hif⟩
  have hs1 : ({ s with streams := ids.foldl setAdd s.streams } : LcState).attached
      = s.attached := rfl
  by_cases ha : s.attached = true
  · have hsub : subscribe s ids
        = ids.foldl (fun s id => if mapHas s.subs id then s else subscribeStream s id)
            { s with streams := ids.foldl setAdd s.streams } := by
      rw [subscribe, if_pos (by rw [hs1]; exact ha)]
    rw [ha] at hif
    simp only [if_true] at hif
    have h := subscribe_fold ids { s with streams := ids.foldl setAdd s.streams }
      (by show s.subs = s.live; exact hsl)
    rcases h with ⟨h1, h2, h3, h4⟩
    rw [hsub]
    have hatt2 := h4.trans (hs1.trans ha)
    refine ⟨⟨h1, ?_, ?_⟩, h4.trans hs1⟩
    · rw [h3]
      show (ids.foldl setAdd s.streams).Nodup
      exact foldl_setAdd_nodup ids s.streams hnd
    · rw [hatt2]
      simp only [if_true]
      rw [h2, h3]
      show ids.foldl setAdd (s.subs.map Prod.fst) = ids.foldl setAdd s.streams
      rw [hif]
  · have haf : s.attached = false := by
      cases hb : s.attached
      · rfl
      · exact absurd hb ha
    have hsub : subscribe s ids = { s with streams := ids.foldl setAdd s.streams } := by
      rw [subscribe, if_neg (by rw [hs1, haf]; simp)]
    rw [hsub]
    rw [haf] at hif
    simp only [Bool.false_eq_true, if_false] at hif
    refine ⟨⟨hsl, ?_, ?_⟩, hs1⟩
    · show (ids.foldl setAdd s.streams).Nodup
      exact foldl_setAdd_nodup ids s.streams hnd
    · rw [hs1, haf]
      simp only [Bool.false_eq_true, if_false]
      exact hif

/-- `unsubscribe` preserves the invariant and the attachment state. -/
theorem lcInv_unsubscribe (s : LcState) (ids : List Nat) (hinv : LcInv s) :
    LcInv (unsubscribe s ids) ∧ (unsubscribe s ids).attached = s.attached := by
  rcases hinv with ⟨hsl, hnd, hif⟩
  have hu : unsubscribe s ids
      = ids.foldl removeStream
          { s with streams := ids.foldl (fun l id => l.erase id) s.streams } := rfl
  have hknd : (s.subs.map Prod.fst).Nodup := by
    by_cases ha : s.attached = true
    · rw [ha] at hif
      simp only [if_true] at hif
      rw [hif]; exact hnd
    · have haf : s.attached = false := by
        cases hb : s.attached
        · rfl
        · exact absurd hb ha
      rw [haf] at hif
      simp only [Bool.false_eq_true, if_false] at hif
      rw [hif]; simp
  have h := unsubscribe_fold ids { s with streams := ids.foldl (fun l id => l.erase id) s.streams }
    (by show s.subs = s.live; exact hsl) (by show (s.subs.map Prod.fst).Nodup; exact hknd)
  rcases h with ⟨h1, h2, h3, h4, h5⟩
  rw [hu]
  have hstr : ({ s with streams := ids.foldl (fun l id => l.erase id) s.streams } : LcState).streams
      = ids.foldl (fun l id => l.erase id) s.streams := rfl
  have hatt : ({ s with streams := ids.foldl (fun l id => l.erase id) s.streams } : LcState).attached
      = s.attached := rfl
  refine ⟨⟨h1, ?_, ?_⟩, h5.trans hatt⟩
  · rw [h4, hstr]
    exact foldl_erase_nodup ids s.streams hnd
  · by_cases ha : s.attached = true
    · have hax := h5.trans (hatt.trans ha)
      rw [if_pos hax, h2, h4, hstr]
      rw [ha] at hif
      simp only [if_true] at hif
      show ids.foldl (fun l id => l.erase id) (s.subs.map Prod.fst)
          = ids.foldl (fun l id => l.erase id) s.streams
      rw [hif]
    · have haf : s.attached = false := by
        cases hb : s.attached
        · rfl
        · exact absurd hb ha
      have hax : ¬ ((ids.foldl removeStream
          { s with streams := ids.foldl (fun l id => l.erase id) s.streams }).attached = true) := by
        rw [h5.trans (hatt.trans haf)]
        simp
      rw [if_neg hax]
      rw [haf] at hif
      simp only [Bool.false_eq_true, if_false] at hif
      have hz := h2.trans (by
        show ids.foldl (fun l id => l.erase id) (s.subs.map Prod.fst) = []
        rw [hif]
        exact foldl_erase_nil ids)
      exact List.map_eq_nil_iff.mp hz

/-- The bookkeeping invariant holds in every state reachable from a state
satisfying it by a well-formed operation sequence. -/
theorem lcInv_runOps :
    ∀ (ops : List LcOp) (s : LcState), LcInv s → wfOps s.attached ops = true →
      LcInv (runOps s ops) := by
  intro ops
  induction ops with
  | nil => intro s h _; exact h
  | cons op rest ih =>
    intro s h hwf
    have hrun : runOps s (op :: rest) = runOps (applyOp s op) rest := by
      rw [runOps, List.foldl_cons]; rfl
    rw [hrun]
    cases op with
    | connected =>
      have hwf2 : (!s.attached && wfOps true rest) = true := hwf
      have hsplit : s.attached = false ∧ wfOps true rest = true := by
        simpa using hwf2
      have h2 := lcInv_connected s h hsplit.1
      apply ih _ h2.1
      show wfOps (connectedCallback s).attached rest = true
      rw [h2.2]
      exact hsplit.2
    | disconnected =>
      have hwf2 : wfOps false rest = true := hwf
      have h2 := lcInv_disconnected s h
      apply ih _ h2.1
      show wfOps (disconnectedCallback s).attached rest = true
      rw [h2.2]
      exact hwf2
    | subscribeCall ids =>
      have hwf2 : wfOps s.attached rest = true := hwf
      have h2 := lcInv_subscribe s ids h
      apply ih _ h2.1
      show wfOps (subscribe s ids).attached rest = true
      rw [h2.2]
      exact hwf2
    | unsubscribeCall ids =>
      have hwf2 : wfOps s.attached rest = true := hwf
      have h2 := lcInv_unsubscribe s ids h
      apply ih _ h2.1
      show wfOps (unsubscribe s ids).attached rest = true
      rw [h2.2]
      exact hwf2

/-- `hasLive` decides membership in the live streams. -/
theorem hasLive_iff (s : LcState) (id : Nat) :
    hasLive s id = true ↔ id ∈ s.live.map Prod.fst := by
  simp [hasLive, List.any_eq_true, List.mem_map]

/-- C3 counterexample: the claim quantifies over ANY sequence of the four
lifecycle operations.  Under the sequence register(0), attach, attach,
detach, the second attach overwrites stream 0's mapped subscription with a
fresh one without unsubscribing the old handle, and the detach then
unsubscribes only the mapped handle: afterwards stream 0 is registered, the
instance is detached, and yet one of its subscriptions is still live —
refuting the claimed "live iff attached" invariant. -/
theorem registered_live_iff_attached_cex :
    0 ∈ (runOps lcInit doubleAttachOps).streams ∧
    (runOps lcInit doubleAttachOps).attached = false ∧
    hasLive (runOps lcInit doubleAttachOps) 0 = true := by
  refine ⟨by decide, by decide, by decide⟩

/-- C3 (amended): in every state reachable from a fresh instance by a
sequence of `connectedCallback`, `disconnectedCallback`, `subscribe` and
`unsubscribe` operations in which `connectedCallback` is only ever invoked
while detached (as the host runtime guarantees), a stream belonging to the
Registered Stream Set has a live subscription if and only if the instance
is currently attached. -/
theorem registered_live_iff_attached (ops : List LcOp) (hwf : wfOps false ops = true)
    (id : Nat) (hid : id ∈ (runOps lcInit ops).streams) :
    hasLive (runOps lcInit ops) id = true ↔ (runOps lcInit ops).attached = true := by
  have hinv : LcInv (runOps lcInit ops) :=
    lcInv_runOps ops lcInit (by decide) hwf
  rcases hinv with ⟨hsl, _, hif⟩
  cases hb : (runOps lcInit ops).attached with
  | false =>
    rw [hb] at hif
    simp only [Bool.false_eq_true, if_false] at hif
    constructor
    · intro hl
      exfalso
      have := (hasLive_iff _ _).mp hl
      rw [← hsl, hif] at this
      simp at this
    · intro hc
      simp [hb] at hc
  | true =>
    rw [hb] at hif
    simp only [if_true] at hif
    constructor
    · intro _; rfl
    · intro _
      apply (hasLive_iff _ _).mpr
      rw [← hsl, hif]
      exact hid

/-- C3 witness: the amended theorem at the sequence register(3), attach. -/
theorem registered_live_iff_attached_witness :
    wfOps false [LcOp.subscribeCall [3], LcOp.connected] = true ∧
    3 ∈ (runOps lcInit [LcOp.subscribeCall [3], LcOp.connected]).streams ∧
    (hasLive (runOps lcInit [LcOp.subscribeCall [3], LcOp.connected]) 3 = true
      ↔ (runOps lcInit [LcOp.subscribeCall [3], LcOp.connected]).attached = true) :=
  ⟨by decide, by decide,
    registered_live_iff_attached [LcOp.subscribeCall [3], LcOp.connected] (by decide)
      3 (by decide)⟩

/-- Entries of a key not present filter to nothing. -/
theorem filter_key_nil :
    ∀ (l : List (Nat × Nat)) (id : Nat), id ∉ l.map Prod.fst →
      l.filter (fun p => p.1 == id) = [] := by
  intro l
  induction l with
  | nil => intro id _; rfl
  | cons p rest ih =>
    intro id h
    simp only [List.map_cons, List.mem_cons] at h
    push_neg at h
    have hb : (p.1 == id) = false := by
      simp only [beq_eq_false_iff_ne]
      exact fun hc => h.1 hc.symm
    simp [List.filter_cons, hb, ih _ h.2]

/-- With duplicate-free keys, a present key filters to exactly one entry. -/
theorem filter_key_one :
    ∀ (l : List (Nat × Nat)) (id : Nat), (l.map Prod.fst).Nodup → id ∈ l.map Prod.fst →
      (l.filter (fun p => p.1 == id)).length = 1 := by
  intro l
  induction l with
  | nil => intro id _ h; simp at h
  | cons p rest ih =>
    intro id hnd hm
    simp only [List.map_cons, List.nodup_cons] at hnd
    simp only [List.map_cons] at hm
    rcases List.mem_cons.mp hm with he | hm2
    · have hb : (p.1 == id) = true := by simp [he]
      have hrest : rest.filter (fun q => q.1 == id) = [] := by
        apply filter_key_nil
        intro hc
        exact hnd.1 (he ▸ hc)
      simp [List.filter_cons, hb, hrest]
    · have hne : id ≠ p.1 := fun hc => hnd.1 (hc ▸ hm2)
      have hb : (p.1 == id) = false := by
        simp only [beq_eq_false_iff_ne]
        exact fun hc => hne hc.symm
      simp [List.filter_cons, hb, ih id hnd.2 hm2]

/-- Under the invariant, an attached instance holds exactly one live
subscription per registered stream. -/
theorem liveCount_eq_one (s : LcState) (hinv : LcInv s) (hatt : s.attached = true)
    (id : Nat) (hid : id ∈ s.streams) : liveCount s id = 1 := by
  rcases hinv with ⟨hsl, hnd, hif⟩
  rw [hatt] at hif
  simp only [if_true] at hif
  rw [liveCount, ← hsl]
  apply filter_key_one
  · rw [hif]; exact hnd
  · rw [hif]; exact hid

/-- Membership in a `setAdd` fold. -/
theorem mem_foldl_setAdd :
    ∀ (ids : List Nat) (l : List Nat) (x : Nat), (x ∈ l ∨ x ∈ ids) →
      x ∈ ids.foldl setAdd l := by
  intro ids
  induction ids with
  | nil =>
    intro l x h
    rcases h with h | h
    · exact h
    · simp at h
  | cons i rest ih =>
    intro l x h
    rw [List.foldl_cons]
    apply ih
    rcases h with h | h
    · left
      rw [setAdd]
      by_cases hm : i ∈ l
      · rw [if_pos hm]; exact h
      · rw [if_neg hm]; exact List.mem_append_left _ h
    · rcases List.mem_cons.mp h with he | hm2
      · left
        rw [setAdd]
        by_cases hm : i ∈ l
        · rw [if_pos hm]; exact he ▸ hm
        · rw [if_neg hm]
          apply List.mem_append_right
          simp [he]
      · right
        exact hm2

/-- The conditional subscription fold of `subscribe` never changes the
registered stream set. -/
theorem subscribe_fold_streams :
    ∀ (ids : List Nat) (s : LcState),
      (ids.foldl (fun s id => if mapHas s.subs id then s else subscribeStream s id) s).streams
        = s.streams := by
  intro ids
  induction ids with
  | nil => intro s; rfl
  | cons i rest ih =>
    intro s
    rw [List.foldl_cons]
    by_cases hm : mapHas s.subs i = true
    · rw [if_pos hm]; exact ih s
    · rw [if_neg hm]; exact ih (subscribeStream s i)

/-- `subscribe` updates the registered stream set by `setAdd`. -/
theorem subscribe_streams (s : LcState) (ids : List Nat) :
    (subscribe s ids).streams = ids.foldl setAdd s.streams := by
  have hs1 : ({ s with streams := ids.foldl setAdd s.streams } : LcState).attached
      = s.attached := rfl
  by_cases ha : s.attached = true
  · have hsub : subscribe s ids
        = ids.foldl (fun s id => if mapHas s.subs id then s else subscribeStream s id)
            { s with streams := ids.foldl setAdd s.streams } := by
      rw [subscribe, if_pos (by rw [hs1]; exact ha)]
    rw [hsub, subscribe_fold_streams]
  · have haf : s.attached = false := by
      cases hb : s.attached
      · rfl
      · exact absurd hb ha
    have hsub : subscribe s ids = { s with streams := ids.foldl setAdd s.streams } := by
      rw [subscribe, if_neg (by rw [hs1, haf]; simp)]
    rw [hsub]

/-- Repeated `subscribe` calls from an attached state satisfying the
invariant keep the invariant, the attachment, and any registered stream. -/
theorem subscribe_calls_keep (id : Nat) :
    ∀ (calls : List (List Nat)) (s : LcState), LcInv s → s.attached = true →
      id ∈ s.streams →
      LcInv (calls.foldl subscribe s) ∧ (calls.foldl subscribe s).attached = true ∧
      id ∈ (calls.foldl subscribe s).streams := by
  intro calls
  induction calls with
  | nil => intro s h1 h2 h3; exact ⟨h1, h2, h3⟩
  | cons c rest ih =>
    intro s h1 h2 h3
    rw [List.foldl_cons]
    have h4 := lcInv_subscribe s c h1
    apply ih
    · exact h4.1
    · exact h4.2.trans h2
    · rw [subscribe_streams]
      exact mem_foldl_setAdd c s.streams id (Or.inl h3)

/-- C5: registering the same stream any number of times while attached —
within one `subscribe(...streams)` call, or spread over several calls —
leaves exactly one active subscription for it: the stream set ignores
duplicates and `subscribe` skips streams that already have a mapped
subscription.  A single live subscription means the stream's observer chain
executes exactly once per event the stream emits. -/
theorem register_same_stream_single_subscription :
    ∀ (id : Nat) (calls : List (List Nat)) (s : LcState), LcInv s → s.attached = true →
      (∃ c ∈ calls, id ∈ c) → liveCount (calls.foldl subscribe s) id = 1 := by
  intro id calls
  induction calls with
  | nil =>
    intro s _ _ hid
    rcases hid with ⟨c, hc, _⟩
    simp at hc
  | cons c rest ih =>
    intro s hinv hatt hid
    rw [List.foldl_cons]
    have h2 := lcInv_subscribe s c hinv
    by_cases hmem : id ∈ c
    · have hin : id ∈ (subscribe s c).streams := by
        rw [subscribe_streams]
        exact mem_foldl_setAdd c s.streams id (Or.inr hmem)
      have hk := subscribe_calls_keep id rest (subscribe s c) h2.1 (h2.2.trans hatt) hin
      exact liveCount_eq_one _ hk.1 hk.2.1 id hk.2.2
    · rcases hid with ⟨c2, hc2, hmem2⟩
      rcases List.mem_cons.mp hc2 with he | hm2
      · exact absurd (he ▸ hmem2) hmem
      · exact ih (subscribe s c) h2.1 (h2.2.trans hatt) ⟨c2, hm2, hmem2⟩

/-- C5 witness: registering stream 5 three times over two calls on a freshly
attached instance leaves exactly one live subscription. -/
theorem register_same_stream_single_subscription_witness :
    LcInv (connectedCallback lcInit) ∧ (connectedCallback lcInit).attached = true ∧
    (∃ c ∈ [[5], [5, 5]], 5 ∈ c) ∧
    liveCount ([[5], [5, 5]].foldl subscribe (connectedCallback lcInit)) 5 = 1 :=
  ⟨by decide, by decide, ⟨[5], by decide, by decide⟩,
    register_same_stream_single_subscription 5 [[5], [5, 5]] (connectedCallback lcInit)
      (by decide) (by decide) ⟨[5], by decide, by decide⟩⟩

/-- `Char.ofNat` of a scalar value below the surrogate range round-trips
through `toNat`. -/
theorem toNat_ofNat_valid (n : Nat) (h : n < 55296) : (Char.ofNat n).toNat = n := by
  rw [Char.ofNat, dif_pos (Or.inl h)]
  rfl

theorem isUpperAscii_arith (c : Char) :
    isUpperAscii c = true ↔ 65 ≤ c.toNat ∧ c.toNat ≤ 90 := by
  simp [isUpperAscii]

theorem toLower_toNat (c : Char) (h : isUpperAscii c = true) :
    (Char.toLower c).toNat = c.toNat + 32 := by
  have harith := (isUpperAscii_arith c).mp h
  rw [Char.toLower, if_pos (by omega)]
  exact toNat_ofNat_valid _ (by omega)

theorem toUpper_toLower (c : Char) (h : isUpperAscii c = true) :
    Char.toUpper (Char.toLower c) = c := by
  have harith := (isUpperAscii_arith c).mp h
  have hlow := toLower_toNat c h
  rw [Char.toUpper, if_pos (by omega), hlow]
  have h2 : c.toNat + 32 - 32 = c.toNat := by omega
  rw [h2, Char.ofNat_toNat]

theorem isLower_toLower (c : Char) (h : isUpperAscii c = true) :
    isLowerAscii (Char.toLower c) = true := by
  have harith := (isUpperAscii_arith c).mp h
  have hlow := toLower_toNat c h
  simp only [isLowerAscii, Bool.and_eq_true, decide_eq_true_eq, hlow]
  omega

theorem alnum_ne_underscore (c : Char) (h : isAlnumAscii c = true) : c ≠ '_' := by
  intro he
  rw [he] at h
  exact absurd h (by decide)

theorem lower_ne_underscore (c : Char) (h : isLowerAscii c = true) : c ≠ '_' := by
  intro he
  rw [he] at h
  exact absurd h (by decide)

theorem alnum_not_dash_underscore (c : Char) (h : isAlnumAscii c = true) :
    (c == '-' || c == '_') = false := by
  have h1 : (c == '-') = false := by
    cases hb : (c == '-')
    · rfl
    · exfalso
      rw [eq_of_beq hb] at h
      exact absurd h (by decide)
  have h2 : (c == '_') = false := by
    cases hb : (c == '_')
    · rfl
    · exfalso
      rw [eq_of_beq hb] at h
      exact absurd h (by decide)
  rw [h1, h2]
  rfl

theorem kebabPass1_head (b : Char) (rest : List Char) :
    ∃ tail, kebabPass1 (b :: rest) = b :: tail := by
  cases rest with
  | nil => exact ⟨[], rfl⟩
  | cons c r =>
    rw [kebabPass1]
    by_cases hg : (isLowerDigit b && isUpperAscii c) = true
    · rw [if_pos hg]; exact ⟨_, rfl⟩
    · rw [if_neg hg]; exact ⟨_, rfl⟩

theorem kebabPass1_no_underscore :
    ∀ l : List Char, (∀ c ∈ l, isAlnumAscii c = true) → ∀ c ∈ kebabPass1 l, c ≠ '_' := by
  intro l
  induction l using kebabPass1.induct with
  | case1 => intro _ c hc; simp [kebabPass1] at hc
  | case2 a =>
    intro h c hc
    have hc2 : c = a := by simpa [kebabPass1] using hc
    rw [hc2]
    exact alnum_ne_underscore a (h a (by simp))
  | case3 a b rest hg ih =>
    intro h c hc
    rw [kebabPass1, if_pos hg] at hc
    have hbu : isUpperAscii b = true := by
      have := hg
      simp only [Bool.and_eq_true] at this
      exact this.2
    rcases List.mem_cons.mp hc with he | hc2
    · subst he; exact alnum_ne_underscore c (h c (by simp))
    rcases List.mem_cons.mp hc2 with he | hc3
    · subst he; decide
    rcases List.mem_cons.mp hc3 with he | hc4
    · subst he; exact lower_ne_underscore _ (isLower_toLower b hbu)
    · exact ih (fun x hx => h x (List.mem_cons_of_mem a (List.mem_cons_of_mem b hx))) c hc4
  | case4 a b rest hg ih =>
    intro h c hc
    rw [kebabPass1, if_neg hg] at hc
    rcases List.mem_cons.mp hc with he | hc2
    · subst he; exact alnum_ne_underscore c (h c (by simp))
    · exact ih (fun x hx => h x (List.mem_cons_of_mem a hx)) c hc2

theorem kebabPass2_id :
    ∀ l : List Char, (∀ c ∈ l, c ≠ '_') → kebabPass2 l = l := by
  intro l
  induction l using kebabPass2.induct with
  | case1 => intro _; rfl
  | case2 a => intro _; rfl
  | case3 a b => intro _; rfl
  | case4 a b c rest hg ih =>
    intro h
    exfalso
    have hb : b = '_' := by
      simp only [Bool.and_eq_true, decide_eq_true_eq] at hg
      exact hg.1.1
    exact h b (by simp) hb
  | case5 a b c rest hg ih =>
    intro h
    rw [kebabPass2, if_neg hg]
    rw [ih (fun x hx => h x (List.mem_cons_of_mem a hx))]

theorem camelPass_kebabPass1 :
    ∀ l : List Char, (∀ c ∈ l, isAlnumAscii c = true) → camelPass (kebabPass1 l) = l := by
  intro l
  induction l using kebabPass1.induct with
  | case1 => intro _; rfl
  | case2 a => intro _; rfl
  | case3 a b rest hg ih =>
    intro h
    have hbu : isUpperAscii b = true := by
      have := hg
      simp only [Bool.and_eq_true] at this
      exact this.2
    rw [kebabPass1, if_pos hg]
    have hlow : isLowerAscii (Char.toLower b) = true := isLower_toLower b hbu
    have hword : isWordAscii (Char.toLower b) = true := by
      simp [isWordAscii, hlow]
    have hneg1 : ((a == '-' || a == '_') && isWordAscii '-') = false := by
      have hw : isWordAscii '-' = false := by decide
      rw [hw, Bool.and_false]
    rw [camelPass, if_neg (by rw [hneg1]; simp)]
    have hpos2 : ((('-' : Char) == '-' || ('-' : Char) == '_')
        && isWordAscii (Char.toLower b)) = true := by
      rw [hword]
      simp
    rw [camelPass, if_pos hpos2]
    rw [toUpper_toLower b hbu,
      ih (fun x hx => h x (List.mem_cons_of_mem a (List.mem_cons_of_mem b hx)))]
  | case4 a b rest hg ih =>
    intro h
    rw [kebabPass1, if_neg hg]
    obtain ⟨tail, htail⟩ := kebabPass1_head b rest
    have ha : isAlnumAscii a = true := h a (by simp)
    have hcond : ((a == '-' || a == '_') && isWordAscii b) = false := by
      rw [alnum_not_dash_underscore a ha, Bool.false_and]
    rw [htail, camelPass, if_neg (by rw [hcond]; simp), ← htail]
    rw [ih (fun x hx => h x (List.mem_cons_of_mem a hx))]

/-- C10: for every property name consisting of ASCII letters and digits (no
hyphens or underscores), `toCamelCase (toKebabCase name) = name`.  This
round trip routes a host attribute-change notification — delivered under
the kebab-cased name `observedAttributes` exposes for the declared field —
back to the originally declared field: every field write that
`attributeChangedCallback` performs for the kebab-cased attribute name
targets exactly the declared property name. -/
theorem kebab_camel_roundtrip (name : String)
    (h : ∀ c ∈ name.data, isAlnumAscii c = true) :
    toCamelCase (toKebabCase name) = name ∧
    toKebabCase name ∈ observedAttributes [(name, plainObservedCfg)] ∧
    (∀ (properties : List (String × PropCfg)) (oldValue newValue p : String) (v : JSVal),
      HostAction.write p v
          ∈ (attributeChangedCallback properties (toKebabCase name) oldValue newValue).1 →
        p = name) := by
  have hround : toCamelCase (toKebabCase name) = name := by
    rw [toKebabCase, toCamelCase]
    have hdata : (String.mk (kebabPass2 (kebabPass1 name.data))).data
        = kebabPass2 (kebabPass1 name.data) := rfl
    rw [hdata, kebabPass2_id _ (kebabPass1_no_underscore name.data h),
      camelPass_kebabPass1 name.data h]
  refine ⟨hround, by simp [observedAttributes], ?_⟩
  intro properties oldValue newValue p v hw
  by_cases he : oldValue = newValue
  · simp only [attributeChangedCallback, if_pos he] at hw
    simp at hw
  · simp only [attributeChangedCallback, if_neg he] at hw
    rcases hlook : lookupProp properties (toCamelCase (toKebabCase name)) with _ | cfg
    · simp [hlook] at hw
    · rcases hd : deserialize newValue cfg with err | v2
      · simp [hlook, hd] at hw
      · simp [hlook, hd] at hw
        rw [hw.1]
        exact hround

/-- C10 witness: the round trip at the concrete property name `myProp`,
whose kebab-cased attribute is `my-prop`. -/
theorem kebab_camel_roundtrip_witness :
    (∀ c ∈ "myProp".data, isAlnumAscii c = true) ∧
    toKebabCase "myProp" = "my-prop" ∧
    toCamelCase (toKebabCase "myProp") = "myProp" :=
  ⟨by decide, by decide, (kebab_camel_roundtrip "myProp" (by decide)).1⟩
